import Mathlib

/-!
Formal model of the NBA player-prop parlay engine
(src/nba_odds/parlay_generator.py), with floats modelled as rationals
and fallible Python code (ZeroDivisionError) modelled with Option.
-/

namespace ParlayGen

/-- A single candidate prop bet (one row of the tabular PropLeg store).
Fields mirror the dict/DataFrame-row keys used by parlay_generator.py. -/
structure Leg where
  player_name : String
  market_key : String
  market_description : String
  prop_line : ℚ
  odds : ℚ
  odds_decimal : ℚ
  implied_prob : ℚ
  edge : ℚ
deriving DecidableEq, Repr

/-- A scored parlay record, mirroring the dicts built by score_combo and
the greedy builder. -/
structure Parlay where
  legs : List Leg
  num_legs : ℕ
  probability : ℚ
  avg_edge : ℚ
  payout : ℚ
deriving DecidableEq, Repr

/-- Translation of parlay_score (lines 33-50).  The loop accumulates
prob (product of implied_prob), edge (sum of edge) and payout (product of
odds); avg_edge = edge / len(parlay) raises ZeroDivisionError on an empty
parlay, modelled as none. -/
def parlay_score (parlay : List Leg) (mode : String) : Option ℚ :=
  if parlay.length = 0 then
    none
  else
    let prob := (parlay.map Leg.implied_prob).prod
    let edge := (parlay.map Leg.edge).sum
    let avg_edge := edge / (parlay.length : ℚ)
    if mode = "prob" then some prob
    else if mode = "edge" then some avg_edge
    else some (0.5 * prob + 0.5 * ((avg_edge + 1) / 2))

/-- Recursive core of is_valid_combo: iterate over the legs, tracking the
sets of player names and market keys seen so far. -/
def validAux : List Leg → List String → List String → Bool
  | [], _, _ => true
  | leg :: rest, players, markets =>
    if leg.player_name ∈ players ∨ leg.market_key ∈ markets then false
    else validAux rest (leg.player_name :: players) (leg.market_key :: markets)

/-- Translation of is_valid_combo (lines 53-61): reject a combination as
soon as a leg repeats an already-seen player_name or market_key. -/
def is_valid_combo (combo : List Leg) : Bool :=
  validAux combo [] []

/-- Translation of score_combo (lines 64-82).  The outer Option models the
ZeroDivisionError raised by edge / k when the combo is empty; the inner
Option models the explicit return None when prob < min_prob. -/
def score_combo (combo : List Leg) (min_prob : ℚ) : Option (Option Parlay) :=
  if combo.length = 0 then
    none
  else
    let prob := (combo.map Leg.implied_prob).prod
    let edge := (combo.map Leg.edge).sum
    let payout := (combo.map Leg.odds_decimal).prod
    let avg_edge := edge / (combo.length : ℚ)
    if prob < min_prob then some none
    else some (some ⟨combo, combo.length, prob, avg_edge, payout⟩)

/-- Translation of expected_value_no_sweat (lines 228-240), including the
intermediate bindings of the Python function. -/
def expected_value_no_sweat (parlay : Parlay) (stake : ℚ) (free_bet_conversion : ℚ) : ℚ :=
  let win_prob := parlay.probability
  let payout := parlay.payout * stake
  let net_win := payout - stake
  let lose_prob := 1 - win_prob
  let free_bet_value := stake * free_bet_conversion
  win_prob * net_win + lose_prob * free_bet_value - lose_prob * stake

/-- The product of implied probabilities, as the spec words it (the P of
the balance formula). -/
def specProb (legs : List Leg) : ℚ :=
  (legs.map Leg.implied_prob).prod

/-- The arithmetic mean of the edge values, as the spec words it (the E of
the balance formula). -/
def specAvgEdge (legs : List Leg) : ℚ :=
  (legs.map Leg.edge).sum / (legs.length : ℚ)

/-- Translation of the sort key of generate_parlays line 101:
0.5 * probability + 0.5 * ((avg_edge + 1) / 2). -/
def balanceKey (p : Parlay) : ℚ :=
  0.5 * p.probability + 0.5 * ((p.avg_edge + 1) / 2)

/-- A sample leg used to instantiate theorems at concrete inputs. -/
def legDemo : Leg :=
  ⟨"Player A", "player_points", "Points", 20.5, 9/5, 9/5, 3/5, 3/10⟩

/-- A second sample leg (different player and market). -/
def legDemoB : Leg :=
  ⟨"Player B", "player_rebounds", "Rebounds", 10.5, 2, 2, 1/2, 1/5⟩

/-- A sample parlay matching the spec scenario (probability 0.165,
payout 6.12). -/
def parlayDemo : Parlay := ⟨[legDemo], 1, 33/200, 1/5, 153/25⟩

lemma validAux_iff (legs : List Leg) : ∀ ps ms : List String,
    validAux legs ps ms = true ↔
      (legs.Pairwise (fun a b => a.player_name ≠ b.player_name) ∧
       legs.Pairwise (fun a b => a.market_key ≠ b.market_key) ∧
       ∀ l ∈ legs, l.player_name ∉ ps ∧ l.market_key ∉ ms) := by
  induction legs with
  | nil => simp [validAux]
  | cons leg rest ih =>
    intro ps ms
    unfold validAux
    by_cases h : leg.player_name ∈ ps ∨ leg.market_key ∈ ms
    · rw [if_pos h]
      simp only [Bool.false_eq_true, false_iff]
      rintro ⟨-, -, hmem⟩
      rcases hmem leg (by simp) with ⟨hp, hm⟩
      tauto
    · rw [if_neg h, ih]
      push_neg at h
      simp only [List.pairwise_cons, List.mem_cons, forall_eq_or_imp, not_or]
      constructor
      · rintro ⟨hpw1, hpw2, hmem⟩
        exact ⟨⟨fun b hb e => ((hmem b hb).1).1 e.symm, hpw1⟩,
               ⟨fun b hb e => ((hmem b hb).2).1 e.symm, hpw2⟩,
               ⟨h.1, h.2⟩, fun l hl => ⟨((hmem l hl).1).2, ((hmem l hl).2).2⟩⟩
      · rintro ⟨⟨hp1, hpw1⟩, ⟨hp2, hpw2⟩, ⟨hps, hms⟩, hmem⟩
        exact ⟨hpw1, hpw2, fun l hl => ⟨⟨fun e => hp1 l hl e.symm, (hmem l hl).1⟩,
               ⟨fun e => hp2 l hl e.symm, (hmem l hl).2⟩⟩⟩

/-- C2: the standard combination validator accepts a combination exactly
when no two legs share a player_name and no two legs share a market_key. -/
theorem C2_validator_iff (legs : List Leg) :
    is_valid_combo legs = true ↔
      (legs.Pairwise (fun a b => a.player_name ≠ b.player_name) ∧
       legs.Pairwise (fun a b => a.market_key ≠ b.market_key)) := by
  rw [is_valid_combo, validAux_iff]
  simp

/-- Witness for C2 at a concrete two-leg combination. -/
theorem C2_validator_iff_witness :
    is_valid_combo [legDemo, legDemoB] = true :=
  (C2_validator_iff [legDemo, legDemoB]).mpr ⟨by decide, by decide⟩

/-- C3: the promotional (no-sweat) expected value equals
p * (m * s - s) + (1 - p) * (s * c) - (1 - p) * s, and on the spec
scenario (p = 0.165, m = 6.12, s = 100, c = 0.7) it is exactly 59.43. -/
theorem C3_no_sweat_ev (P : Parlay) (stake c : ℚ) :
    expected_value_no_sweat P stake c =
      P.probability * (P.payout * stake - stake) + (1 - P.probability) * (stake * c)
        - (1 - P.probability) * stake ∧
    (P.probability = 33/200 → P.payout = 153/25 →
      expected_value_no_sweat P 100 (7/10) = 5943/100) := by
  constructor
  · rfl
  · intro hp hm
    unfold expected_value_no_sweat
    rw [hp, hm]
    norm_num

/-- Witness for C3 at the spec scenario values. -/
theorem C3_no_sweat_ev_witness :
    expected_value_no_sweat parlayDemo 100 (7/10) = 5943/100 :=
  (C3_no_sweat_ev parlayDemo 100 (7/10)).2 (by norm_num [parlayDemo]) (by norm_num [parlayDemo])

/-- C10: both scorers are undefined (ZeroDivisionError) on an empty leg
sequence and total on every non-empty one. -/
theorem C10_scorer_totality (legs : List Leg) (mode : String) (min_prob : ℚ) :
    (parlay_score [] mode = none ∧ score_combo [] min_prob = none) ∧
    (legs ≠ [] → (parlay_score legs mode).isSome ∧ (score_combo legs min_prob).isSome) := by
  constructor
  · constructor
    · simp [parlay_score]
    · simp [score_combo]
  · intro h
    have hlen : ¬ legs.length = 0 := by simpa [List.length_eq_zero] using h
    constructor
    · unfold parlay_score
      rw [if_neg hlen]
      by_cases h1 : mode = "prob"
      · simp [h1]
      · by_cases h2 : mode = "edge" <;> simp [h1, h2]
    · unfold score_combo
      rw [if_neg hlen]
      by_cases hp : (legs.map Leg.implied_prob).prod < min_prob <;> simp [hp]

/-- Witness for C10 at a concrete one-leg parlay. -/
theorem C10_scorer_totality_witness :
    (parlay_score [legDemo] "balance").isSome ∧ (score_combo [legDemo] (1/20)).isSome :=
  (C10_scorer_totality [legDemo] "balance" (1/20)).2 (by simp)

/-- C1: on non-empty parlays the scorer returns the product probability in
prob mode, the mean edge in edge mode, 0.5 * P + 0.5 * ((E + 1) / 2) in
balance mode, and the exhaustive engines sort key applied to a scored
combination is exactly that balance value. -/
theorem C1_balance_formula (legs : List Leg) (min_prob : ℚ) (h : legs ≠ []) :
    parlay_score legs "prob" = some (specProb legs) ∧
    parlay_score legs "edge" = some (specAvgEdge legs) ∧
    parlay_score legs "balance" =
      some (1/2 * specProb legs + 1/2 * ((specAvgEdge legs + 1) / 2)) ∧
    ∀ P, score_combo legs min_prob = some (some P) →
      balanceKey P = 1/2 * specProb legs + 1/2 * ((specAvgEdge legs + 1) / 2) := by
  have hlen : ¬ legs.length = 0 := by simpa [List.length_eq_zero] using h
  refine ⟨?_, ?_, ?_, ?_⟩
  · unfold parlay_score
    rw [if_neg hlen, if_pos rfl]
    rfl
  · unfold parlay_score
    rw [if_neg hlen, if_neg (by decide), if_pos rfl]
    rfl
  · unfold parlay_score
    rw [if_neg hlen, if_neg (by decide), if_neg (by decide)]
    unfold specProb specAvgEdge
    norm_num
  · intro P hP
    unfold score_combo at hP
    rw [if_neg hlen] at hP
    by_cases hp : (legs.map Leg.implied_prob).prod < min_prob
    · rw [if_pos hp] at hP
      simp at hP
    · rw [if_neg hp] at hP
      simp only [Option.some.injEq] at hP
      rw [← hP]
      unfold balanceKey specProb specAvgEdge
      norm_num

/-- Witness for C1 at a concrete one-leg parlay. -/
theorem C1_balance_formula_witness :
    parlay_score [legDemo] "balance" =
      some (1/2 * specProb [legDemo] + 1/2 * ((specAvgEdge [legDemo] + 1) / 2)) :=
  (C1_balance_formula [legDemo] (1/20) (by simp)).2.2.1

/-- Translation of AMERICAN_ODDS_CAP (line 24). -/
def AMERICAN_ODDS_CAP : ℚ := -500

/-- Translation of the helper decimal_to_american_odds_val defined inside
greedy_parlay_builder (lines 116-120). -/
def decimal_to_american_odds_val (decimal_odds : ℚ) : ℚ :=
  if decimal_odds ≥ 2 then (decimal_odds - 1) * 100
  else -100 / (decimal_odds - 1)

/-- The pool filters the greedy builder applies (lines 113-121 and again
163-165): odds_decimal > 1.01, and American-odds equivalent at least the
cap. -/
def greedyLegOk (l : Leg) : Bool :=
  decide (l.odds_decimal > 101/100) &&
    decide (decimal_to_american_odds_val l.odds_decimal ≥ AMERICAN_ODDS_CAP)

/-- A leg with odds_decimal 1.18, between the spec threshold ~1.1667 and
the true threshold 1.2. -/
def legCapGap : Leg :=
  ⟨"Player C", "player_assists", "Assists", 7.5, 59/50, 59/50, 4/5, 1/10⟩

/-- Counterexample to C8: odds_decimal 1.18 exceeds the claimed rough
threshold 1.1667 (and 1.01), yet the greedy odds filters exclude it, since
its American equivalent -5000/9 is below -500. -/
theorem C8_counterexample :
    legCapGap.odds_decimal = 59/50 ∧ (7/6 : ℚ) ≤ 59/50 ∧ (101/100 : ℚ) < 59/50 ∧
    greedyLegOk legCapGap = false ∧ decimal_to_american_odds_val (59/50) < -500 := by
  have hval : decimal_to_american_odds_val (59/50) = -5000/9 := by
    unfold decimal_to_american_odds_val
    rw [if_neg (by norm_num)]
    norm_num
  refine ⟨rfl, by norm_num, by norm_num, ?_, by rw [hval]; norm_num⟩
  rw [Bool.eq_false_iff]
  intro hc
  unfold greedyLegOk at hc
  simp only [Bool.and_eq_true, decide_eq_true_eq] at hc
  have h2 := hc.2
  unfold AMERICAN_ODDS_CAP at h2
  have : legCapGap.odds_decimal = 59/50 := rfl
  rw [this, hval] at h2
  norm_num at h2

/-- C8 (amended): a leg passes both greedy odds filters exactly when its
odds_decimal is at least 1.2, the decimal equivalent of American -500. -/
theorem C8_amended_odds_cap (l : Leg) :
    greedyLegOk l = true ↔ 6/5 ≤ l.odds_decimal := by
  unfold greedyLegOk decimal_to_american_odds_val AMERICAN_ODDS_CAP
  simp only [Bool.and_eq_true, decide_eq_true_eq]
  constructor
  · rintro ⟨h1, h2⟩
    by_cases hd : l.odds_decimal ≥ 2
    · linarith
    · rw [if_neg hd] at h2
      have hpos : (0:ℚ) < l.odds_decimal - 1 := by linarith
      rw [ge_iff_le, le_div_iff₀ hpos] at h2
      linarith
  · intro h
    refine ⟨by linarith, ?_⟩
    by_cases hd : l.odds_decimal ≥ 2
    · rw [if_pos hd]
      linarith
    · rw [if_neg hd]
      have hpos : (0:ℚ) < l.odds_decimal - 1 := by linarith
      rw [ge_iff_le, le_div_iff₀ hpos]
      linarith

/-- Witness for C8 (amended) at a concrete passing leg. -/
theorem C8_amended_odds_cap_witness : greedyLegOk legDemoB = true :=
  (C8_amended_odds_cap legDemoB).mpr (by norm_num [legDemoB])

/-- All k-element combinations of a list, in the order itertools
combinations produces them. -/
def combinations : ℕ → List Leg → List (List Leg)
  | 0, _ => [[]]
  | _ + 1, [] => []
  | k + 1, x :: xs => (combinations k xs).map (x :: ·) ++ combinations (k + 1) xs

/-- The scored surviving parlays of size k (generate_parlays lines 89-100):
valid size-k combinations scored by score_combo, dropping the None
results. -/
def sizeParlays (props : List Leg) (k : ℕ) (min_prob : ℚ) : List Parlay :=
  ((combinations k props).filter is_valid_combo).filterMap
    (fun c => (score_combo c min_prob).join)

/-- Insert into a list sorted by descending balance key, keeping earlier
elements first on ties (Python list.sort is stable). -/
def insertDescBal (p : Parlay) : List Parlay → List Parlay
  | [] => [p]
  | q :: qs => if balanceKey q ≤ balanceKey p then p :: q :: qs else q :: insertDescBal p qs

/-- Stable sort by descending balance key (generate_parlays line 101). -/
def sortDescBal : List Parlay → List Parlay
  | [] => []
  | p :: ps => insertDescBal p (sortDescBal ps)

/-- The early-stop test of generate_parlays line 103: the sorted survivor
list is non-empty and its first parlay (the top one by balance score) has
probability below min_prob * 2. -/
def stopCond (props : List Leg) (k : ℕ) (min_prob : ℚ) : Bool :=
  match sortDescBal (sizeParlays props k min_prob) with
  | [] => false
  | p :: _ => decide (p.probability < min_prob * 2)

/-- The sequence of leg-counts the exhaustive loop attempts, from k with
the given remaining loop iterations. -/
def genSizes (props : List Leg) (min_prob : ℚ) : ℕ → ℕ → List ℕ
  | _, 0 => []
  | k, fuel + 1 =>
    if stopCond props k min_prob then [k]
    else k :: genSizes props min_prob (k + 1) fuel

/-- The parlays the exhaustive loop accumulates into best_parlays. -/
def genBest (props : List Leg) (min_prob : ℚ) (top_n : ℕ) : ℕ → ℕ → List Parlay
  | _, 0 => []
  | k, fuel + 1 =>
    let sorted := sortDescBal (sizeParlays props k min_prob)
    if stopCond props k min_prob then sorted.take top_n
    else sorted.take top_n ++ genBest props min_prob top_n (k + 1) fuel

/-- Translation of generate_parlays (lines 85-105).  The first component
is the returned best_parlays list; the second records which sizes k the
loop body ran for (the observable trace of the escalation rule). -/
def generate_parlays (props : List Leg) (min_legs max_legs : ℕ) (min_prob : ℚ)
    (top_n : ℕ) : List Parlay × List ℕ :=
  (genBest props min_prob top_n min_legs (max_legs + 1 - min_legs),
   genSizes props min_prob min_legs (max_legs + 1 - min_legs))

lemma genSizes_bounds (props : List Leg) (mp : ℚ) :
    ∀ fuel k kp, kp ∈ genSizes props mp k fuel → k ≤ kp ∧ kp < k + fuel := by
  intro fuel
  induction fuel with
  | zero => intro k kp h; simp [genSizes] at h
  | succ n ih =>
    intro k kp h
    unfold genSizes at h
    by_cases hs : stopCond props k mp
    · rw [if_pos hs] at h
      simp at h
      omega
    · rw [if_neg hs] at h
      rcases List.mem_cons.mp h with e | e
      · omega
      · have := ih (k + 1) kp e
        omega

lemma genSizes_self (props : List Leg) (mp : ℚ) (k n : ℕ) :
    k ∈ genSizes props mp k (n + 1) := by
  unfold genSizes
  by_cases hs : stopCond props k mp
  · rw [if_pos hs]; simp
  · rw [if_neg hs]; simp

lemma genSizes_succ (props : List Leg) (mp : ℚ) :
    ∀ fuel k kp, kp ∈ genSizes props mp k fuel → kp + 1 < k + fuel →
      ((kp + 1) ∈ genSizes props mp k fuel ↔ stopCond props kp mp = false) := by
  intro fuel
  induction fuel with
  | zero => intro k kp h; simp [genSizes] at h
  | succ n ih =>
    intro k kp h hlt
    unfold genSizes at h ⊢
    by_cases hs : stopCond props k mp
    · rw [if_pos hs] at h ⊢
      simp only [List.mem_singleton] at h
      subst h
      simp only [List.mem_singleton]
      constructor
      · intro hx; omega
      · intro hx; rw [hs] at hx; cases hx
    · rw [if_neg hs] at h ⊢
      have hf : stopCond props k mp = false := Bool.not_eq_true _ |>.mp hs
      rcases List.mem_cons.mp h with e | e
      · subst e
        rw [hf]
        simp only [iff_true]
        rcases n with - | m
        · omega
        · exact List.mem_cons.mpr (Or.inr (genSizes_self props mp _ m))
      · have hb := genSizes_bounds props mp n (k + 1) kp e
        have hlt2 : kp + 1 < (k + 1) + n := by omega
        rw [← ih (k + 1) kp e hlt2]
        constructor
        · intro hx
          rcases List.mem_cons.mp hx with e2 | e2
          · omega
          · exact e2
        · intro hx
          exact List.mem_cons.mpr (Or.inr hx)

/-- A surviving size-1 parlay with low probability but high edge: it tops
the balance ranking while another survivor has much higher probability. -/
def legLowProbHighEdge : Leg :=
  ⟨"Player D", "player_points", "Points", 30.5, 2, 2, 3/50, 1⟩

/-- A surviving size-1 parlay with high probability but zero edge. -/
def legHighProbLowEdge : Leg :=
  ⟨"Player E", "player_rebounds", "Rebounds", 8.5, 2, 2, 1/5, 0⟩

/-- The parlay score_combo builds from the low-probability high-edge leg. -/
def parlayLowHigh : Parlay := ⟨[legLowProbHighEdge], 1, 3/50, 1, 2⟩

/-- The parlay score_combo builds from the high-probability zero-edge leg. -/
def parlayHighLow : Parlay := ⟨[legHighProbLowEdge], 1, 1/5, 0, 2⟩

lemma sizeParlays_cex :
    sizeParlays [legLowProbHighEdge, legHighProbLowEdge] 1 (1/20) =
      [parlayLowHigh, parlayHighLow] := by
  have hcomb : (combinations 1 [legLowProbHighEdge, legHighProbLowEdge]).filter
      is_valid_combo = [[legLowProbHighEdge], [legHighProbLowEdge]] := by
    simp [combinations, is_valid_combo, validAux]
  have hD : (score_combo [legLowProbHighEdge] (1/20)).join = some parlayLowHigh := by
    unfold score_combo
    rw [if_neg (by simp), if_neg (by norm_num [legLowProbHighEdge])]
    norm_num [Option.join, parlayLowHigh, legLowProbHighEdge]
  have hE : (score_combo [legHighProbLowEdge] (1/20)).join = some parlayHighLow := by
    unfold score_combo
    rw [if_neg (by simp), if_neg (by norm_num [legHighProbLowEdge])]
    norm_num [Option.join, parlayHighLow, legHighProbLowEdge]
  unfold sizeParlays
  rw [hcomb, List.filterMap_cons, List.filterMap_cons, List.filterMap_nil, hD, hE]

lemma stopCond_cex :
    stopCond [legLowProbHighEdge, legHighProbLowEdge] 1 (1/20) = true := by
  have hsort : sortDescBal [parlayLowHigh, parlayHighLow] = [parlayLowHigh, parlayHighLow] := by
    simp only [sortDescBal, insertDescBal]
    rw [if_pos (by norm_num [balanceKey, parlayLowHigh, parlayHighLow])]
  unfold stopCond
  rw [sizeParlays_cex, hsort]
  simp only [decide_eq_true_eq]
  norm_num [parlayLowHigh]

/-- Counterexample to C4: with pool {D, E}, min_legs 1, max_legs 2 and
min_probability 1/20, a size-1 survivor (E) has probability 1/5, at least
2 * min_probability, yet the engine never attempts size 2 - the stop test
reads the probability of the top parlay by balance score (D, probability
3/50), not the maximum surviving probability. -/
theorem C4_counterexample :
    (∃ p ∈ sizeParlays [legLowProbHighEdge, legHighProbLowEdge] 1 (1/20),
        (1/20 : ℚ) * 2 ≤ p.probability) ∧
    2 ∉ (generate_parlays [legLowProbHighEdge, legHighProbLowEdge] 1 2 (1/20) 10).2 := by
  constructor
  · refine ⟨parlayHighLow, ?_, by norm_num [parlayHighLow]⟩
    rw [sizeParlays_cex]
    simp
  · have hsizes : (generate_parlays [legLowProbHighEdge, legHighProbLowEdge] 1 2 (1/20) 10).2
        = [1] := by
      show genSizes [legLowProbHighEdge, legHighProbLowEdge] (1/20) 1 (2 + 1 - 1) = [1]
      unfold genSizes
      rw [if_pos stopCond_cex]
    rw [hsizes]
    simp

/-- C4 (amended): for an attempted size k below max_legs, the exhaustive
engine attempts size k+1 iff the stop test fails; the stop test fires iff
the size-k survivor list is non-empty and its top parlay in the balance
ordering has probability below 2 * min_probability. -/
theorem C4_amended_stop_rule (props : List Leg) (min_legs max_legs : ℕ) (min_prob : ℚ)
    (top_n k : ℕ)
    (hk : k ∈ (generate_parlays props min_legs max_legs min_prob top_n).2)
    (hlt : k < max_legs) :
    (k + 1) ∈ (generate_parlays props min_legs max_legs min_prob top_n).2 ↔
      stopCond props k min_prob = false := by
  unfold generate_parlays at hk ⊢
  rcases Nat.eq_zero_or_pos (max_legs + 1 - min_legs) with h0 | h0
  · rw [h0] at hk
    simp [genSizes] at hk
  · have hb := genSizes_bounds props min_prob (max_legs + 1 - min_legs) min_legs k hk
    have hlt2 : k + 1 < min_legs + (max_legs + 1 - min_legs) := by omega
    exact genSizes_succ props min_prob (max_legs + 1 - min_legs) min_legs k hk hlt2

/-- Witness for C4 (amended) with a concrete one-leg pool. -/
theorem C4_amended_stop_rule_witness :
    (2 ∈ (generate_parlays [legDemoB] 1 2 (1/20) 10).2) ↔
      stopCond [legDemoB] 1 (1/20) = false :=
  C4_amended_stop_rule [legDemoB] 1 2 (1/20) 10 1
    (genSizes_self [legDemoB] (1/20) 1 1) (by omega)

/-- The ordered pairs (props[i], props[j]) with i < j, in the order of the
double loop of lines 126-127. -/
def pairsList : List Leg → List (Leg × Leg)
  | [] => []
  | x :: xs => xs.map (fun y => (x, y)) ++ pairsList xs

/-- The parlay dict built for a candidate 2-leg pair (lines 138-144). -/
def pairParlay (a b : Leg) : Parlay :=
  ⟨[a, b], 2, a.implied_prob * b.implied_prob, (a.edge + b.edge) / 2,
   a.odds_decimal * b.odds_decimal⟩

/-- A pair survives the guaranteed-2-leg scan: a valid combo whose payout
reaches the 3.0 floor (lines 129-134). -/
def qualPair (pr : Leg × Leg) : Prop :=
  is_valid_combo [pr.1, pr.2] = true ∧ 3 ≤ (pairParlay pr.1 pr.2).payout

/-- The scan of lines 123-144 as a fold: best_score is the avg_edge of the
current best pair; with no best yet (best_score = float(-inf)) any
qualifying pair is taken, and afterwards a qualifying pair replaces the
best exactly when its average edge strictly exceeds the best score. -/
def best2LegAux : List (Leg × Leg) → Option Parlay → Option Parlay
  | [], best => best
  | pr :: rest, none =>
    if is_valid_combo [pr.1, pr.2] then
      if (pairParlay pr.1 pr.2).payout < 3 then best2LegAux rest none
      else best2LegAux rest (some (pairParlay pr.1 pr.2))
    else best2LegAux rest none
  | pr :: rest, some cur =>
    if is_valid_combo [pr.1, pr.2] then
      if (pairParlay pr.1 pr.2).payout < 3 then best2LegAux rest (some cur)
      else
        if cur.avg_edge < (pr.1.edge + pr.2.edge) / 2 then
          best2LegAux rest (some (pairParlay pr.1 pr.2))
        else best2LegAux rest (some cur)
    else best2LegAux rest (some cur)

/-- The guaranteed best-2-leg parlay of greedy_parlay_builder
(lines 122-146), over an already odds-filtered pool. -/
def best_2leg (props : List Leg) : Option Parlay :=
  best2LegAux (pairsList props) none

lemma best2LegAux_spec : ∀ (pairs : List (Leg × Leg)) (best : Option Parlay),
    (best2LegAux pairs best = none ↔ best = none ∧ ∀ pr ∈ pairs, ¬ qualPair pr) ∧
    (∀ p, best2LegAux pairs best = some p →
      ((best = some p ∨ ∃ pr ∈ pairs, qualPair pr ∧ p = pairParlay pr.1 pr.2) ∧
       (∀ q, best = some q → q.avg_edge ≤ p.avg_edge) ∧
       (∀ pr ∈ pairs, qualPair pr → (pairParlay pr.1 pr.2).avg_edge ≤ p.avg_edge))) := by
  intro pairs
  induction pairs with
  | nil =>
    intro best
    refine ⟨by simp [best2LegAux], ?_⟩
    intro p hp
    rw [best2LegAux] at hp
    subst hp
    exact ⟨Or.inl rfl, fun q hq => by rw [Option.some.injEq] at hq; rw [hq], by simp⟩
  | cons pr rest ih =>
    intro best
    by_cases hv : is_valid_combo [pr.1, pr.2] = true
    · by_cases hp3 : (pairParlay pr.1 pr.2).payout < 3
      · have hstep : best2LegAux (pr :: rest) best = best2LegAux rest best := by
          cases best with
          | none => rw [best2LegAux, if_pos hv, if_pos hp3]
          | some cur => rw [best2LegAux, if_pos hv, if_pos hp3]
        have hnq : ¬ qualPair pr := fun hq => absurd hq.2 (not_le.mpr hp3)
        constructor
        · rw [hstep, (ih best).1]
          simp only [List.mem_cons, forall_eq_or_imp]
          tauto
        · intro p hp
          rw [hstep] at hp
          have h := (ih best).2 p hp
          refine ⟨?_, h.2.1, ?_⟩
          · rcases h.1 with e | ⟨pr2, h2, h3⟩
            · exact Or.inl e
            · exact Or.inr ⟨pr2, List.mem_cons.mpr (Or.inr h2), h3⟩
          · intro pr2 h2 hq2
            rcases List.mem_cons.mp h2 with e | e
            · exact absurd (e ▸ hq2) hnq
            · exact h.2.2 pr2 e hq2
      · have hq : qualPair pr := ⟨hv, le_of_not_lt hp3⟩
        cases best with
        | none =>
          have hstep : best2LegAux (pr :: rest) none =
              best2LegAux rest (some (pairParlay pr.1 pr.2)) := by
            rw [best2LegAux, if_pos hv, if_neg hp3]
          constructor
          · rw [hstep, (ih (some (pairParlay pr.1 pr.2))).1]
            simp only [List.mem_cons, forall_eq_or_imp]
            tauto
          · intro p hp
            rw [hstep] at hp
            have h := (ih (some (pairParlay pr.1 pr.2))).2 p hp
            have hle : (pairParlay pr.1 pr.2).avg_edge ≤ p.avg_edge :=
              h.2.1 (pairParlay pr.1 pr.2) rfl
            refine ⟨?_, by simp, ?_⟩
            · rcases h.1 with e | ⟨pr2, h2, h3⟩
              · rw [Option.some.injEq] at e
                exact Or.inr ⟨pr, List.mem_cons.mpr (Or.inl rfl), hq, e.symm⟩
              · exact Or.inr ⟨pr2, List.mem_cons.mpr (Or.inr h2), h3⟩
            · intro pr2 h2 hq2
              rcases List.mem_cons.mp h2 with e | e
              · exact e ▸ hle
              · exact h.2.2 pr2 e hq2
        | some cur =>
          by_cases hlt : cur.avg_edge < (pr.1.edge + pr.2.edge) / 2
          · have hstep : best2LegAux (pr :: rest) (some cur) =
                best2LegAux rest (some (pairParlay pr.1 pr.2)) := by
              rw [best2LegAux, if_pos hv, if_neg hp3, if_pos hlt]
            constructor
            · rw [hstep, (ih (some (pairParlay pr.1 pr.2))).1]
              simp only [List.mem_cons, forall_eq_or_imp]
              tauto
            · intro p hp
              rw [hstep] at hp
              have h := (ih (some (pairParlay pr.1 pr.2))).2 p hp
              have hle : (pairParlay pr.1 pr.2).avg_edge ≤ p.avg_edge :=
                h.2.1 (pairParlay pr.1 pr.2) rfl
              have hcur : cur.avg_edge ≤ p.avg_edge := le_of_lt (lt_of_lt_of_le hlt hle)
              refine ⟨?_, ?_, ?_⟩
              · rcases h.1 with e | ⟨pr2, h2, h3⟩
                · rw [Option.some.injEq] at e
                  exact Or.inr ⟨pr, List.mem_cons.mpr (Or.inl rfl), hq, e.symm⟩
                · exact Or.inr ⟨pr2, List.mem_cons.mpr (Or.inr h2), h3⟩
              · intro q hqq
                rw [Option.some.injEq] at hqq
                exact hqq ▸ hcur
              · intro pr2 h2 hq2
                rcases List.mem_cons.mp h2 with e | e
                · exact e ▸ hle
                · exact h.2.2 pr2 e hq2
          · have hstep : best2LegAux (pr :: rest) (some cur) = best2LegAux rest (some cur) := by
              rw [best2LegAux, if_pos hv, if_neg hp3, if_neg hlt]
            constructor
            · rw [hstep, (ih (some cur)).1]
              simp
            · intro p hp
              rw [hstep] at hp
              have h := (ih (some cur)).2 p hp
              have hcur : cur.avg_edge ≤ p.avg_edge := h.2.1 cur rfl
              have hle : (pairParlay pr.1 pr.2).avg_edge ≤ p.avg_edge :=
                le_trans (le_of_not_lt hlt) hcur
              refine ⟨?_, h.2.1, ?_⟩
              · rcases h.1 with e | ⟨pr2, h2, h3⟩
                · exact Or.inl e
                · exact Or.inr ⟨pr2, List.mem_cons.mpr (Or.inr h2), h3⟩
              · intro pr2 h2 hq2
                rcases List.mem_cons.mp h2 with e | e
                · exact e ▸ hle
                · exact h.2.2 pr2 e hq2
    · have hstep : best2LegAux (pr :: rest) best = best2LegAux rest best := by
        cases best with
        | none => rw [best2LegAux, if_neg hv]
        | some cur => rw [best2LegAux, if_neg hv]
      have hnq : ¬ qualPair pr := fun hq => absurd hq.1 hv
      constructor
      · rw [hstep, (ih best).1]
        simp only [List.mem_cons, forall_eq_or_imp]
        tauto
      · intro p hp
        rw [hstep] at hp
        have h := (ih best).2 p hp
        refine ⟨?_, h.2.1, ?_⟩
        · rcases h.1 with e | ⟨pr2, h2, h3⟩
          · exact Or.inl e
          · exact Or.inr ⟨pr2, List.mem_cons.mpr (Or.inr h2), h3⟩
        · intro pr2 h2 hq2
          rcases List.mem_cons.mp h2 with e | e
          · exact absurd (e ▸ hq2) hnq
          · exact h.2.2 pr2 e hq2

/-- C5: the guaranteed best-2-leg pass emits a parlay iff some valid pair
reaches the 3.0 payout floor; when it does, the emitted parlay is built
from such a pair and its average edge is maximal among all of them. -/
theorem C5_best_two_leg (props : List Leg) :
    (best_2leg props = none ↔ ∀ pr ∈ pairsList props, ¬ qualPair pr) ∧
    (∀ p, best_2leg props = some p →
      (∃ pr ∈ pairsList props, qualPair pr ∧ p = pairParlay pr.1 pr.2) ∧
      ∀ pr ∈ pairsList props, qualPair pr →
        (pairParlay pr.1 pr.2).avg_edge ≤ p.avg_edge) := by
  have h := best2LegAux_spec (pairsList props) none
  constructor
  · rw [best_2leg, h.1]
    simp
  · intro p hp
    have h2 := h.2 p hp
    refine ⟨?_, h2.2.2⟩
    rcases h2.1 with e | e
    · cases e
    · exact e

lemma best2leg_demo_eval :
    best_2leg [legDemo, legDemoB] = some (pairParlay legDemo legDemoB) := by
  have hpairs : pairsList [legDemo, legDemoB] = [(legDemo, legDemoB)] := by
    simp [pairsList]
  rw [best_2leg, hpairs, best2LegAux, if_pos (by decide),
    if_neg (by norm_num [pairParlay, legDemo, legDemoB])]
  rfl

/-- Witness for C5: on a concrete pool the emitted pair bounds the average
edge of a concrete qualifying pair. -/
theorem C5_best_two_leg_witness :
    (pairParlay legDemo legDemoB).avg_edge ≤ (pairParlay legDemo legDemoB).avg_edge :=
  ((C5_best_two_leg [legDemo, legDemoB]).2 (pairParlay legDemo legDemoB)
      best2leg_demo_eval).2 (legDemo, legDemoB) (by simp [pairsList])
    ⟨by decide, by norm_num [pairParlay, legDemo, legDemoB]⟩

/-- The pool rows with the same player and market as the leg and a
strictly higher line (the candidates of line 218). -/
def ladderCandidates (df : List Leg) (leg : Leg) : List Leg :=
  df.filter (fun r => decide (r.player_name = leg.player_name ∧
    r.market_key = leg.market_key ∧ leg.prop_line < r.prop_line))

/-- Stable insertion by ascending prop_line, keeping earlier rows first
among equal lines (pandas sort_values is stable). -/
def insertByLine (r : Leg) : List Leg → List Leg
  | [] => [r]
  | q :: qs => if r.prop_line ≤ q.prop_line then r :: q :: qs else q :: insertByLine r qs

/-- Stable sort by ascending prop_line (the sort_values of line 221). -/
def sortByLine : List Leg → List Leg
  | [] => []
  | x :: xs => insertByLine x (sortByLine xs)

/-- Translation of find_next_higher_leg (lines 212-225): the first row of
the candidates sorted by prop_line, or the original leg when none. -/
def find_next_higher_leg (df : List Leg) (leg : Leg) : Leg :=
  match sortByLine (ladderCandidates df leg) with
  | [] => leg
  | next :: _ => next

/-- Translation of the ladder block of save_parlays_markdown (lines
276-296): substitute every leg, deduplicate by value, and report the
ladder only when the deduplicated count equals the original leg count. -/
def ladder_variant (df : List Leg) (legs : List Leg) : Option (List Leg) :=
  let ladder := legs.map (find_next_higher_leg df)
  if ladder.dedup.length = legs.length then some ladder else none

lemma mem_insertByLine (r a : Leg) : ∀ l, a ∈ insertByLine r l ↔ a = r ∨ a ∈ l := by
  intro l
  induction l with
  | nil => simp [insertByLine]
  | cons q qs ih =>
    unfold insertByLine
    by_cases h : r.prop_line ≤ q.prop_line
    · rw [if_pos h]
      simp
    · rw [if_neg h]
      simp only [List.mem_cons, ih]
      tauto

lemma mem_sortByLine (a : Leg) : ∀ l, a ∈ sortByLine l ↔ a ∈ l := by
  intro l
  induction l with
  | nil => simp [sortByLine]
  | cons x xs ih =>
    unfold sortByLine
    rw [mem_insertByLine]
    simp [ih]

lemma sorted_insertByLine (r : Leg) :
    ∀ l, l.Pairwise (fun a b => a.prop_line ≤ b.prop_line) →
      (insertByLine r l).Pairwise (fun a b => a.prop_line ≤ b.prop_line) := by
  intro l
  induction l with
  | nil => intro h; simp [insertByLine]
  | cons q qs ih =>
    intro h
    rw [List.pairwise_cons] at h
    unfold insertByLine
    by_cases hle : r.prop_line ≤ q.prop_line
    · rw [if_pos hle]
      refine List.pairwise_cons.mpr ⟨?_, List.pairwise_cons.mpr h⟩
      intro b hb
      rcases List.mem_cons.mp hb with e | e
      · exact e ▸ hle
      · exact le_trans hle (h.1 b e)
    · rw [if_neg hle]
      refine List.pairwise_cons.mpr ⟨?_, ih h.2⟩
      intro b hb
      rcases (mem_insertByLine r b qs).mp hb with e | e
      · exact e ▸ le_of_not_le hle
      · exact h.1 b e

lemma sorted_sortByLine : ∀ l, (sortByLine l).Pairwise (fun a b => a.prop_line ≤ b.prop_line) := by
  intro l
  induction l with
  | nil => simp [sortByLine]
  | cons x xs ih => exact sorted_insertByLine x (sortByLine xs) ih

/-- C6: find_next_higher_leg keeps the original leg when no pool row for
the same player and market has a strictly higher line, otherwise returns
a candidate with the minimal such line; the candidates are exactly the
matching pool rows; and the ladder variant is reported iff the
value-deduplicated substituted list has the length of the original. -/
theorem C6_ladder_transform (df : List Leg) (leg : Leg) (legs : List Leg) :
    (ladderCandidates df leg = [] → find_next_higher_leg df leg = leg) ∧
    (ladderCandidates df leg ≠ [] →
      find_next_higher_leg df leg ∈ ladderCandidates df leg ∧
      ∀ c ∈ ladderCandidates df leg,
        (find_next_higher_leg df leg).prop_line ≤ c.prop_line) ∧
    (∀ c, c ∈ ladderCandidates df leg ↔ c ∈ df ∧ c.player_name = leg.player_name ∧
      c.market_key = leg.market_key ∧ leg.prop_line < c.prop_line) ∧
    ((ladder_variant df legs).isSome ↔
      (legs.map (find_next_higher_leg df)).dedup.length = legs.length) := by
    refine ⟨?_, ?_, ?_, ?_⟩
    · intro h
      unfold find_next_higher_leg
      rw [h]
      rfl
    · intro h
      rcases hs : sortByLine (ladderCandidates df leg) with - | ⟨next, rest⟩
      · exfalso
        rcases List.exists_mem_of_ne_nil _ h with ⟨c, hc⟩
        have := (mem_sortByLine c (ladderCandidates df leg)).mpr hc
        rw [hs] at this
        exact List.not_mem_nil c this
      · have hfind : find_next_higher_leg df leg = next := by
          unfold find_next_higher_leg
          rw [hs]
        have hsorted := sorted_sortByLine (ladderCandidates df leg)
        rw [hs, List.pairwise_cons] at hsorted
        constructor
        · rw [hfind]
          have : next ∈ sortByLine (ladderCandidates df leg) := by
            rw [hs]; exact List.mem_cons_self next rest
          exact (mem_sortByLine next (ladderCandidates df leg)).mp this
        · intro c hc
          rw [hfind]
          have : c ∈ sortByLine (ladderCandidates df leg) :=
            (mem_sortByLine c (ladderCandidates df leg)).mpr hc
          rw [hs] at this
          rcases List.mem_cons.mp this with e | e
          · exact e ▸ le_refl _
          · exact hsorted.1 c e
    · intro c
      unfold ladderCandidates
      rw [List.mem_filter, decide_eq_true_eq]
    · unfold ladder_variant
      by_cases h : (legs.map (find_next_higher_leg df)).dedup.length = legs.length
      · simp [h]
      · simp [h]

/-- A higher published line for the demo player and market. -/
def legDemoHigher : Leg :=
  ⟨"Player A", "player_points", "Points", 21.5, 2, 2, 1/2, 1/4⟩

lemma ladderCandidates_demo :
    ladderCandidates [legDemo, legDemoHigher] legDemo = [legDemoHigher] := by
  unfold ladderCandidates
  rw [List.filter_cons, List.filter_cons, List.filter_nil,
    if_neg (by norm_num [legDemo]), if_pos (by norm_num [legDemo, legDemoHigher])]

/-- Witness for C6: on a concrete pool the substituted leg is one of the
higher-line candidates. -/
theorem C6_ladder_transform_witness :
    find_next_higher_leg [legDemo, legDemoHigher] legDemo ∈
      ladderCandidates [legDemo, legDemoHigher] legDemo :=
  (((C6_ladder_transform [legDemo, legDemoHigher] legDemo []).2.1)
    (by rw [ladderCandidates_demo]; simp)).1

/-- Conflict test of line 161: a candidate clashes with a parlay when some
parlay leg has the same player_name AND the same market_key. -/
def conflictsWith (parlay : List (ℕ × Leg)) (cand : Leg) : Bool :=
  parlay.any (fun l => decide (l.2.player_name = cand.player_name) &&
    decide (l.2.market_key = cand.market_key))

/-- The rows available for extending a parlay (lines 159-165): not yet
used, no player+market conflict with any parlay leg, and passing the odds
filters again. -/
def availableFor (pool : List (ℕ × Leg)) (used : List ℕ) (parlay : List (ℕ × Leg)) :
    List (ℕ × Leg) :=
  pool.filter (fun il => decide (il.1 ∉ used) && !conflictsWith parlay il.2 &&
    greedyLegOk il.2)

/-- The inner extension loop (lines 158-170), with the iteration count of
range(min_legs - 1, max_legs) as fuel: each step appends the first
available row to the parlay and marks its index used, stopping early when
nothing is available. -/
def extendParlay (pool : List (ℕ × Leg)) :
    ℕ → List (ℕ × Leg) → List ℕ → List (ℕ × Leg) × List ℕ
  | 0, parlay, used => (parlay, used)
  | n + 1, parlay, used =>
    match availableFor pool used parlay with
    | [] => (parlay, used)
    | next :: _ => extendParlay pool n (parlay ++ [next]) (next.1 :: used)

/-- The iteration count of range(min_legs - 1, max_legs), with Python
integer semantics (min_legs - 1 may be negative). -/
def extendBudget (min_legs max_legs : ℕ) : ℕ :=
  ((max_legs : ℤ) - ((min_legs : ℤ) - 1)).toNat

/-- The outer loop of the greedy builder (lines 148-187): up to top_n
rounds, each seeding a parlay with the first unused row, extending it, and
emitting it when it reached min_legs legs; indices are marked used whether
or not the round's parlay is emitted. -/
def buildRounds (pool : List (ℕ × Leg)) (min_legs max_legs : ℕ) :
    ℕ → List ℕ → List (List (ℕ × Leg))
  | 0, _ => []
  | n + 1, used =>
    match pool.filter (fun il => decide (il.1 ∉ used)) with
    | [] => []
    | first :: _ =>
      let res := extendParlay pool (extendBudget min_legs max_legs) [first] (first.1 :: used)
      if min_legs ≤ res.1.length then
        res.1 :: buildRounds pool min_legs max_legs n res.2
      else
        buildRounds pool min_legs max_legs n res.2

/-- Derived fields of an accepted greedy parlay (lines 171-187). -/
def mkParlay (legs : List Leg) : Parlay :=
  ⟨legs, legs.length, (legs.map Leg.implied_prob).prod,
   (legs.map Leg.edge).sum / (legs.length : ℚ), (legs.map Leg.odds_decimal).prod⟩

/-- The indexed pool the greedy builder works on: the df rows with their
original indices, after the odds filters of lines 113-121. -/
def greedyPool (df : List Leg) : List (ℕ × Leg) :=
  df.enum.filter (fun il => greedyLegOk il.2)

/-- The sequentially assembled (indexed) parlays of one greedy run. -/
def greedySequential (df : List Leg) (min_legs max_legs top_n : ℕ) :
    List (List (ℕ × Leg)) :=
  buildRounds (greedyPool df) min_legs max_legs top_n []

/-- Translation of greedy_parlay_builder (lines 108-188): the optional
guaranteed best-2-leg parlay followed by the scored sequential parlays. -/
def greedy_parlay_builder (df : List Leg) (min_legs max_legs top_n : ℕ) : List Parlay :=
  let seq := (greedySequential df min_legs max_legs top_n).map
    (fun ip => mkParlay (ip.map Prod.snd))
  match best_2leg ((greedyPool df).map Prod.snd) with
  | some p => p :: seq
  | none => seq

lemma extendParlay_succ_nil (pool : List (ℕ × Leg)) (n : ℕ) (parlay : List (ℕ × Leg))
    (used : List ℕ) (ha : availableFor pool used parlay = []) :
    extendParlay pool (n + 1) parlay used = (parlay, used) := by
  unfold extendParlay
  rw [ha]

lemma extendParlay_succ_cons (pool : List (ℕ × Leg)) (n : ℕ) (parlay : List (ℕ × Leg))
    (used : List ℕ) (next : ℕ × Leg) (rest : List (ℕ × Leg))
    (ha : availableFor pool used parlay = next :: rest) :
    extendParlay pool (n + 1) parlay used =
      extendParlay pool n (parlay ++ [next]) (next.1 :: used) := by
  conv_lhs => rw [extendParlay]
  rw [ha]

lemma buildRounds_succ_nil (pool : List (ℕ × Leg)) (min_legs max_legs n : ℕ) (used : List ℕ)
    (hf : pool.filter (fun il => decide (il.1 ∉ used)) = []) :
    buildRounds pool min_legs max_legs (n + 1) used = [] := by
  unfold buildRounds
  rw [hf]

lemma buildRounds_succ_cons (pool : List (ℕ × Leg)) (min_legs max_legs n : ℕ) (used : List ℕ)
    (first : ℕ × Leg) (rest : List (ℕ × Leg))
    (hf : pool.filter (fun il => decide (il.1 ∉ used)) = first :: rest) :
    buildRounds pool min_legs max_legs (n + 1) used =
      if min_legs ≤ (extendParlay pool (extendBudget min_legs max_legs) [first]
          (first.1 :: used)).1.length then
        (extendParlay pool (extendBudget min_legs max_legs) [first] (first.1 :: used)).1 ::
          buildRounds pool min_legs max_legs n
            (extendParlay pool (extendBudget min_legs max_legs) [first] (first.1 :: used)).2
      else
        buildRounds pool min_legs max_legs n
          (extendParlay pool (extendBudget min_legs max_legs) [first] (first.1 :: used)).2 := by
  conv_lhs => rw [buildRounds]
  rw [hf]

lemma mem_availableFor (pool : List (ℕ × Leg)) (used : List ℕ) (parlay : List (ℕ × Leg))
    (il : ℕ × Leg) (h : il ∈ availableFor pool used parlay) :
    il ∈ pool ∧ il.1 ∉ used := by
  rw [availableFor, List.mem_filter] at h
  refine ⟨h.1, ?_⟩
  have := h.2
  simp only [Bool.and_eq_true, decide_eq_true_eq] at this
  exact this.1.1

lemma extendParlay_used_mono (pool : List (ℕ × Leg)) :
    ∀ n parlay used, ∀ i ∈ used, i ∈ (extendParlay pool n parlay used).2 := by
  intro n
  induction n with
  | zero => intro parlay used i hi; exact hi
  | succ m ih =>
    intro parlay used i hi
    rcases ha : availableFor pool used parlay with - | ⟨next, rest⟩
    · rw [extendParlay_succ_nil pool m parlay used ha]
      exact hi
    · rw [extendParlay_succ_cons pool m parlay used next rest ha]
      exact ih (parlay ++ [next]) (next.1 :: used) i (List.mem_cons.mpr (Or.inr hi))

lemma extendParlay_parlay_in_used (pool : List (ℕ × Leg)) :
    ∀ n parlay used, (∀ il ∈ parlay, il.1 ∈ used) →
      ∀ il ∈ (extendParlay pool n parlay used).1, il.1 ∈ (extendParlay pool n parlay used).2 := by
  intro n
  induction n with
  | zero => intro parlay used h il hil; exact h il hil
  | succ m ih =>
    intro parlay used h il hil
    rcases ha : availableFor pool used parlay with - | ⟨next, rest⟩
    · rw [extendParlay_succ_nil pool m parlay used ha] at hil ⊢
      exact h il hil
    · rw [extendParlay_succ_cons pool m parlay used next rest ha] at hil ⊢
      refine ih (parlay ++ [next]) (next.1 :: used) ?_ il hil
      intro jl hjl
      rcases List.mem_append.mp hjl with e | e
      · exact List.mem_cons.mpr (Or.inr (h jl e))
      · rw [List.mem_singleton] at e
        exact List.mem_cons.mpr (Or.inl (by rw [e]))

lemma extendParlay_new_not_in (pool : List (ℕ × Leg)) :
    ∀ n parlay used (S : List ℕ), (∀ i ∈ S, i ∈ used) →
      ∀ il ∈ (extendParlay pool n parlay used).1, il ∈ parlay ∨ il.1 ∉ S := by
  intro n
  induction n with
  | zero => intro parlay used S hS il hil; exact Or.inl hil
  | succ m ih =>
    intro parlay used S hS il hil
    rcases ha : availableFor pool used parlay with - | ⟨next, rest⟩
    · rw [extendParlay_succ_nil pool m parlay used ha] at hil
      exact Or.inl hil
    · rw [extendParlay_succ_cons pool m parlay used next rest ha] at hil
      have hnext : next.1 ∉ used := by
        have : next ∈ availableFor pool used parlay := by
          rw [ha]; exact List.mem_cons_self next rest
        exact (mem_availableFor pool used parlay next this).2
      have hS2 : ∀ i ∈ S, i ∈ next.1 :: used :=
        fun i hi => List.mem_cons.mpr (Or.inr (hS i hi))
      rcases ih (parlay ++ [next]) (next.1 :: used) S hS2 il hil with e | e
      · rcases List.mem_append.mp e with e2 | e2
        · exact Or.inl e2
        · rw [List.mem_singleton] at e2
          subst e2
          exact Or.inr (fun hc => hnext (hS il.1 hc))
      · exact Or.inr e

lemma buildRounds_not_in_used (pool : List (ℕ × Leg)) (min_legs max_legs : ℕ) :
    ∀ n used, ∀ P ∈ buildRounds pool min_legs max_legs n used, ∀ il ∈ P, il.1 ∉ used := by
  intro n
  induction n with
  | zero => intro used P hP; simp [buildRounds] at hP
  | succ m ih =>
    intro used P hP il hil
    rcases hf : pool.filter (fun il => decide (il.1 ∉ used)) with - | ⟨first, rest⟩
    · rw [buildRounds_succ_nil pool min_legs max_legs m used hf] at hP
      exact absurd hP (List.not_mem_nil P)
    · rw [buildRounds_succ_cons pool min_legs max_legs m used first rest hf] at hP
      have hfirst : first.1 ∉ used := by
        have : first ∈ pool.filter (fun il => decide (il.1 ∉ used)) := by
          rw [hf]; exact List.mem_cons_self first rest
        have := (List.mem_filter.mp this).2
        simpa using this
      have hmono : ∀ i ∈ used,
          i ∈ (extendParlay pool (extendBudget min_legs max_legs) [first] (first.1 :: used)).2 :=
        fun i hi => extendParlay_used_mono pool _ [first] (first.1 :: used) i
          (List.mem_cons.mpr (Or.inr hi))
      by_cases hlen : min_legs ≤
          (extendParlay pool (extendBudget min_legs max_legs) [first] (first.1 :: used)).1.length
      · rw [if_pos hlen] at hP
        rcases List.mem_cons.mp hP with e | e
        · subst e
          have := extendParlay_new_not_in pool (extendBudget min_legs max_legs) [first]
            (first.1 :: used) used (fun i hi => List.mem_cons.mpr (Or.inr hi)) il hil
          rcases this with e2 | e2
          · rw [List.mem_singleton] at e2
            subst e2
            exact hfirst
          · exact e2
        · intro hc
          exact ih _ P e il hil (hmono il.1 hc)
      · rw [if_neg hlen] at hP
        intro hc
        exact ih _ P hP il hil (hmono il.1 hc)

lemma buildRounds_disjoint (pool : List (ℕ × Leg)) (min_legs max_legs : ℕ) :
    ∀ n used, List.Pairwise (fun P Q => ∀ i ∈ P.map Prod.fst, i ∉ Q.map Prod.fst)
      (buildRounds pool min_legs max_legs n used) := by
  intro n
  induction n with
  | zero => intro used; simp [buildRounds]
  | succ m ih =>
    intro used
    rcases hf : pool.filter (fun il => decide (il.1 ∉ used)) with - | ⟨first, rest⟩
    · rw [buildRounds_succ_nil pool min_legs max_legs m used hf]
      simp
    · rw [buildRounds_succ_cons pool min_legs max_legs m used first rest hf]
      by_cases hlen : min_legs ≤
          (extendParlay pool (extendBudget min_legs max_legs) [first] (first.1 :: used)).1.length
      · rw [if_pos hlen]
        refine List.pairwise_cons.mpr ⟨?_, ih _⟩
        intro Q hQ i hi hiQ
        rw [List.mem_map] at hi hiQ
        rcases hi with ⟨il, hil, rfl⟩
        rcases hiQ with ⟨jl, hjl, hij⟩
        have hin : il.1 ∈ (extendParlay pool (extendBudget min_legs max_legs) [first]
            (first.1 :: used)).2 :=
          extendParlay_parlay_in_used pool _ [first] (first.1 :: used)
            (by intro kl hkl; rw [List.mem_singleton] at hkl; subst hkl
                exact List.mem_cons.mpr (Or.inl rfl)) il hil
        have hout := buildRounds_not_in_used pool min_legs max_legs m _ Q hQ jl hjl
        rw [hij] at hout
        exact hout hin
      · rw [if_neg hlen]
        exact ih _

/-- C7: within one greedy run, no pool row index appears in two distinct
sequentially assembled parlays; every leg placed into a parlay is marked
used and excluded from all later rounds.  The guaranteed best-2-leg
parlay is prepended independently of the used set. -/
theorem C7_no_leg_reuse (df : List Leg) (min_legs max_legs top_n : ℕ) :
    List.Pairwise (fun P Q => ∀ i ∈ P.map Prod.fst, i ∉ Q.map Prod.fst)
      (greedySequential df min_legs max_legs top_n) :=
  buildRounds_disjoint (greedyPool df) min_legs max_legs top_n []

/-- Witness for C7 at a concrete pool and parameters. -/
theorem C7_no_leg_reuse_witness :
    List.Pairwise (fun P Q => ∀ i ∈ P.map Prod.fst, i ∉ Q.map Prod.fst)
      (greedySequential [legDemo, legDemoB] 1 2 3) :=
  C7_no_leg_reuse [legDemo, legDemoB] 1 2 3

lemma extendParlay_length (pool : List (ℕ × Leg)) :
    ∀ n parlay used,
      (extendParlay pool n parlay used).1.length ≤ parlay.length + n ∧
      ((extendParlay pool n parlay used).1.length < parlay.length + n →
        availableFor pool (extendParlay pool n parlay used).2
          (extendParlay pool n parlay used).1 = []) := by
  intro n
  induction n with
  | zero =>
    intro parlay used
    exact ⟨Nat.le_refl _, fun h => absurd h (by simp [extendParlay])⟩
  | succ m ih =>
    intro parlay used
    rcases ha : availableFor pool used parlay with - | ⟨next, rest⟩
    · rw [extendParlay_succ_nil pool m parlay used ha]
      exact ⟨Nat.le_add_right _ _, fun h => ha⟩
    · rw [extendParlay_succ_cons pool m parlay used next rest ha]
      have h := ih (parlay ++ [next]) (next.1 :: used)
      constructor
      · have := h.1
        simp only [List.length_append, List.length_singleton] at this ⊢
        omega
      · intro hlt
        apply h.2
        simp only [List.length_append, List.length_singleton] at hlt ⊢
        omega

lemma buildRounds_length (pool : List (ℕ × Leg)) (min_legs max_legs : ℕ) :
    ∀ n used, ∀ P ∈ buildRounds pool min_legs max_legs n used,
      min_legs ≤ P.length ∧ P.length ≤ 1 + extendBudget min_legs max_legs := by
  intro n
  induction n with
  | zero => intro used P hP; simp [buildRounds] at hP
  | succ m ih =>
    intro used P hP
    rcases hf : pool.filter (fun il => decide (il.1 ∉ used)) with - | ⟨first, rest⟩
    · rw [buildRounds_succ_nil pool min_legs max_legs m used hf] at hP
      exact absurd hP (List.not_mem_nil P)
    · rw [buildRounds_succ_cons pool min_legs max_legs m used first rest hf] at hP
      by_cases hlen : min_legs ≤
          (extendParlay pool (extendBudget min_legs max_legs) [first] (first.1 :: used)).1.length
      · rw [if_pos hlen] at hP
        rcases List.mem_cons.mp hP with e | e
        · subst e
          refine ⟨hlen, ?_⟩
          have := (extendParlay_length pool (extendBudget min_legs max_legs) [first]
            (first.1 :: used)).1
          simpa using this
        · exact ih _ P e
      · rw [if_neg hlen] at hP
        exact ih _ P hP

/-- C9 (amended): each greedy extension round appends at most its
iteration budget of legs and stops early only when nothing is available;
the budget is toNat(max_legs - (min_legs - 1)), so an emitted parlay has
between min_legs and 1 + that budget legs, and the cap coincides with
max_legs exactly for min_legs = 2. -/
theorem C9_amended_growth (pool : List (ℕ × Leg)) (min_legs max_legs top_n n : ℕ)
    (parlay : List (ℕ × Leg)) (used : List ℕ) :
    ((extendParlay pool n parlay used).1.length ≤ parlay.length + n ∧
     ((extendParlay pool n parlay used).1.length < parlay.length + n →
       availableFor pool (extendParlay pool n parlay used).2
         (extendParlay pool n parlay used).1 = [])) ∧
    (∀ P ∈ buildRounds pool min_legs max_legs top_n used,
      min_legs ≤ P.length ∧ P.length ≤ 1 + extendBudget min_legs max_legs) ∧
    (2 ≤ max_legs → 1 + extendBudget 2 max_legs = max_legs) :=
  ⟨extendParlay_length pool n parlay used,
   buildRounds_length pool min_legs max_legs top_n used,
   fun h => by unfold extendBudget; omega⟩

/-- Four mutually non-conflicting legs with valid odds for a concrete
greedy run with min_legs 3 and max_legs 4. -/
def leg4A : Leg := ⟨"P1", "player_points", "Points", 10.5, 2, 2, 1/2, 1/10⟩

/-- Second leg of the 4-leg demo pool. -/
def leg4B : Leg := ⟨"P2", "player_points", "Points", 11.5, 2, 2, 1/2, 1/10⟩

/-- Third leg of the 4-leg demo pool. -/
def leg4C : Leg := ⟨"P3", "player_points", "Points", 12.5, 2, 2, 1/2, 1/10⟩

/-- Fourth leg of the 4-leg demo pool. -/
def leg4D : Leg := ⟨"P4", "player_points", "Points", 13.5, 2, 2, 1/2, 1/10⟩

/-- The indexed demo pool after the (here vacuous) odds filters. -/
def pool4 : List (ℕ × Leg) := [(0, leg4A), (1, leg4B), (2, leg4C), (3, leg4D)]

lemma greedyLegOk_two (l : Leg) (h : l.odds_decimal = 2) : greedyLegOk l = true := by
  unfold greedyLegOk decimal_to_american_odds_val AMERICAN_ODDS_CAP
  rw [h, if_pos (by norm_num : (2:ℚ) ≥ 2)]
  norm_num

lemma greedyPool_demo4 : greedyPool [leg4A, leg4B, leg4C, leg4D] = pool4 := by
  unfold greedyPool pool4
  simp [List.enum, List.enumFrom, List.filter_cons, greedyLegOk_two leg4A rfl,
    greedyLegOk_two leg4B rfl, greedyLegOk_two leg4C rfl, greedyLegOk_two leg4D rfl]

lemma avail4_one :
    availableFor pool4 [0] [(0, leg4A)] = [(1, leg4B), (2, leg4C), (3, leg4D)] := by
  unfold availableFor conflictsWith pool4
  simp [List.filter_cons, List.any_cons, greedyLegOk_two leg4B rfl, greedyLegOk_two leg4C rfl,
    greedyLegOk_two leg4D rfl, show leg4A.player_name = "P1" from rfl,
    show leg4B.player_name = "P2" from rfl, show leg4C.player_name = "P3" from rfl,
    show leg4D.player_name = "P4" from rfl]

lemma avail4_two :
    availableFor pool4 [1, 0] [(0, leg4A), (1, leg4B)] = [(2, leg4C), (3, leg4D)] := by
  unfold availableFor conflictsWith pool4
  simp [List.filter_cons, List.any_cons, greedyLegOk_two leg4C rfl, greedyLegOk_two leg4D rfl,
    show leg4A.player_name = "P1" from rfl, show leg4B.player_name = "P2" from rfl,
    show leg4C.player_name = "P3" from rfl, show leg4D.player_name = "P4" from rfl]

lemma extend_demo4 :
    extendParlay pool4 2 [(0, leg4A)] [0] = ([(0, leg4A), (1, leg4B), (2, leg4C)], [2, 1, 0]) :=
  (extendParlay_succ_cons pool4 1 [(0, leg4A)] [0] (1, leg4B) [(2, leg4C), (3, leg4D)]
      avail4_one).trans
    ((extendParlay_succ_cons pool4 0 [(0, leg4A), (1, leg4B)] [1, 0] (2, leg4C) [(3, leg4D)]
      avail4_two).trans rfl)

lemma buildRounds_demo4 :
    buildRounds pool4 3 4 1 [] = [[(0, leg4A), (1, leg4B), (2, leg4C)]] := by
  have hstep := buildRounds_succ_cons pool4 3 4 0 []
    (0, leg4A) [(1, leg4B), (2, leg4C), (3, leg4D)] (by simp [pool4])
  rw [hstep]
  have hb : extendBudget 3 4 = 2 := by decide
  simp only [hb]
  rw [show ((0, leg4A).1 :: ([] : List ℕ)) = [0] from rfl, extend_demo4]
  simp [buildRounds]

lemma greedySequential_demo4 :
    greedySequential [leg4A, leg4B, leg4C, leg4D] 3 4 1 =
      [[(0, leg4A), (1, leg4B), (2, leg4C)]] := by
  unfold greedySequential
  rw [greedyPool_demo4]
  exact buildRounds_demo4

/-- Counterexample to C9: with min_legs 3 and max_legs 4 and a pool of
four mutually non-conflicting legs that all pass the odds filters, the
greedy run emits a single 3-leg parlay - the inner loop runs
range(min_legs - 1, max_legs) = 2 iterations, so the parlay can never
reach max_legs = 4 legs. -/
theorem C9_counterexample :
    greedyLegOk leg4A = true ∧ greedyLegOk leg4B = true ∧
    greedyLegOk leg4C = true ∧ greedyLegOk leg4D = true ∧
    List.Pairwise (fun a b => ¬(a.player_name = b.player_name ∧ a.market_key = b.market_key))
      [leg4A, leg4B, leg4C, leg4D] ∧
    (greedySequential [leg4A, leg4B, leg4C, leg4D] 3 4 1).map List.length = [3] ∧
    (3 : ℕ) ≠ 4 := by
  refine ⟨greedyLegOk_two leg4A rfl, greedyLegOk_two leg4B rfl, greedyLegOk_two leg4C rfl,
    greedyLegOk_two leg4D rfl, by decide, ?_, by decide⟩
  rw [greedySequential_demo4]
  rfl

/-- Witness for C9 (amended) at the concrete emitted 3-leg parlay. -/
theorem C9_amended_growth_witness :
    3 ≤ ([(0, leg4A), (1, leg4B), (2, leg4C)] : List (ℕ × Leg)).length ∧
    ([(0, leg4A), (1, leg4B), (2, leg4C)] : List (ℕ × Leg)).length ≤ 1 + extendBudget 3 4 :=
  (C9_amended_growth pool4 3 4 1 0 [] []).2.1 [(0, leg4A), (1, leg4B), (2, leg4C)]
    (by rw [buildRounds_demo4]; simp)

end ParlayGen
